import Mathlib

/-!
Verification of the incremental recitation-alignment core of quran-voice-buddy.

The source of truth is `src/pages/RecitePage.tsx` (the Tarteel-style matching
effect, `levenshteinDistance`, `calculateSimilarity`) and `normalizeArabic`
from the quran-api library module.  Strings are modelled as `List Char`
(every character involved is in the Basic Multilingual Plane, so JavaScript
UTF-16 code units coincide with code points).  JavaScript numbers produced
by `calculateSimilarity` are modelled as exact rationals; every comparison
performed by the engine compares such a value with a small integer
threshold.
-/

namespace QVB

/-! ### Levenshtein distance (RecitePage.tsx lines 59-82)

The source fills the classic dynamic-programming table
`dp[i][j] = if str1[i-1] = str2[j-1] then dp[i-1][j-1]
            else 1 + min (dp[i-1][j]) (dp[i][j-1]) (dp[i-1][j-1])`
with `dp[i][0] = i`, `dp[0][j] = j`, and returns `dp[m][n]`.  We realise the
same recurrence by structural recursion on a fuel argument (the sum of the
two lengths bounds the recursion depth); `levFuel_congr` below shows the
fuel is irrelevant, which yields the defining equations of the table. -/

def levFuel : Nat → List Char → List Char → Nat
  | 0, _, _ => 0
  | _ + 1, [], ys => ys.length
  | _ + 1, x :: xs, [] => (x :: xs).length
  | f + 1, x :: xs, y :: ys =>
      if x = y then levFuel f xs ys
      else 1 + min (levFuel f xs (y :: ys)) (min (levFuel f (x :: xs) ys) (levFuel f xs ys))

def levenshteinDistance (str1 str2 : List Char) : Nat :=
  levFuel (str1.length + str2.length) str1 str2

/-! ### Similarity score (RecitePage.tsx lines 85-92)

The source computes `((maxLength - distance) / maxLength) * 100` in
JavaScript floating point; we model the value as the exact rational
`(maxLength - distance) * 100 / maxLength`, built with `Rat.divInt` so the
definition evaluates inside the kernel.  `calculateSimilarity_formula`
relates it to the textbook `100 * (maxLen - dist) / maxLen` form. -/

def calculateSimilarity (str1 str2 : List Char) : ℚ :=
  if str1 = str2 then 100
  else if str1.length = 0 ∨ str2.length = 0 then 0
  else
    Rat.divInt (((max str1.length str2.length : ℤ) - (levenshteinDistance str1 str2 : ℤ)) * 100)
      (max str1.length str2.length : ℤ)

/-! ### Arabic normalization (quran-api module, `normalizeArabic`)

The source applies, in order: remove tashkeel (U+064B-U+065F, U+0670);
remove tatweel (U+0640); map the hamza-carrying alif variants
(U+0623, U+0625, U+0622, U+0671) to bare alif; map taa marbuta (U+0629) to
haa (U+0647); map alif maksura (U+0649) to yaa (U+064A); remove the waqf
range (U+06D6-U+06ED); then `replace(/\s+/g, ' ').trim()`.  `isJsWs` is the
character class of the JavaScript regex `\s` (which `trim` also uses);
`collapseWs` realises the global replacement of each maximal whitespace run
by a single space as a left-to-right scan with an in-run flag. -/

def isJsWs (c : Char) : Bool :=
  let n := c.toNat
  n == 0x9 || n == 0xA || n == 0xB || n == 0xC || n == 0xD || n == 0x20 ||
  n == 0xA0 || n == 0x1680 || (0x2000 ≤ n && n ≤ 0x200A) || n == 0x2028 ||
  n == 0x2029 || n == 0x202F || n == 0x205F || n == 0x3000 || n == 0xFEFF

def isTashkeel (c : Char) : Bool :=
  (0x64B ≤ c.toNat && c.toNat ≤ 0x65F) || c.toNat == 0x670

def isTatweel (c : Char) : Bool := c.toNat == 0x640

def isHamzaVariant (c : Char) : Bool :=
  c == 'أ' || c == 'إ' || c == 'آ' || c == 'ٱ'

def isWaqfMark (c : Char) : Bool := 0x6D6 ≤ c.toNat && c.toNat ≤ 0x6ED

def collapseAux : Bool → List Char → List Char
  | _, [] => []
  | inRun, c :: cs =>
    if isJsWs c then
      if inRun then collapseAux true cs else ' ' :: collapseAux true cs
    else c :: collapseAux false cs

def collapseWs (l : List Char) : List Char := collapseAux false l

def jsTrim (l : List Char) : List Char :=
  ((l.dropWhile isJsWs).reverse.dropWhile isJsWs).reverse

def normalizeArabic (text : List Char) : List Char :=
  let s1 := text.filter (fun c => !isTashkeel c)
  let s2 := s1.filter (fun c => !isTatweel c)
  let s3 := s2.map (fun c => if isHamzaVariant c then 'ا' else c)
  let s4 := s3.map (fun c => if c == 'ة' then 'ه' else c)
  let s5 := s4.map (fun c => if c == 'ى' then 'ي' else c)
  let s6 := s5.filter (fun c => !isWaqfMark c)
  jsTrim (collapseWs s6)

/-- Characters that none of the six character-level rewriting steps of
`normalizeArabic` touches. -/
def goodChar (c : Char) : Bool :=
  !isTashkeel c && !isTatweel c && !isHamzaVariant c &&
    !(c == 'ة') && !(c == 'ى') && !isWaqfMark c

/-- The six character-level steps of `normalizeArabic` as one function. -/
def charSteps (text : List Char) : List Char :=
  (((((text.filter (fun c => !isTashkeel c)).filter (fun c => !isTatweel c)).map
    (fun c => if isHamzaVariant c then 'ا' else c)).map
    (fun c => if c == 'ة' then 'ه' else c)).map
    (fun c => if c == 'ى' then 'ي' else c)).filter (fun c => !isWaqfMark c)

/-- Adjacent characters of a collapsed string are never both whitespace. -/
def NoWsPair (a b : Char) : Prop := ¬(isJsWs a = true ∧ isJsWs b = true)

/-! ### The alignment engine (RecitePage.tsx lines 94-394)

`WordStatus` mirrors the interface of the same name; `initStatuses` mirrors
the initialisation effect (lines 121-144); `advance` mirrors one run of the
incremental-matching effect (lines 147-384) on a snapshot of the hypothesis
token list (`userWords`, the normalized transcript split on spaces), with
`isListening` true.  The loop reads only the immutable fields of the
original `wordStatuses` array and writes statuses into a copy, so
`stepWord` returns the new cursor plus the list of status writes of one
iteration; `none` models the loop's `break` (defer).  JavaScript truthiness
of an optional string is `truthy`. -/

inductive WStatus
  | pending
  | correct
  | incorrect
deriving DecidableEq, Repr

structure WordStatus where
  word : List Char
  normalized : List Char
  status : WStatus
  ayahIndex : Nat
  isLastWord : Bool
deriving DecidableEq, Repr

def wsDummy : WordStatus := ⟨[], [], WStatus.pending, 0, false⟩

def wAt (ref : List WordStatus) (i : Nat) : WordStatus := ref.getD i wsDummy

def truthy : Option (List Char) → Bool
  | none => false
  | some s => !s.isEmpty

/-- `i === 0 || wordStatuses[i - 1]?.isLastWord` (used at lines 179-180 and 332). -/
def isStartAt (ref : List WordStatus) (i : Nat) : Bool :=
  i == 0 || (ref[i-1]?).elim false (fun w => w.isLastWord)

/-- The bounded-lookahead search loop (lines 232-255): scan `i` from `idx0+1`
for `steps` positions, stopping at an ayah boundary, skipping candidates
shorter than the minimum length, returning the first sufficiently similar
candidate. -/
def findAheadAux (ref : List WordStatus) (u : List Char) (currentRef : WordStatus)
    (currentAyah idx0 : Nat) : Nat → Nat → Option Nat
  | _, 0 => none
  | i, steps + 1 =>
    let w := wAt ref i
    let sameAyah := w.ayahIndex == currentAyah
    let isNextAyahFirstWord := currentRef.isLastWord && i == idx0 + 1 &&
      (w.ayahIndex == currentAyah + 1)
    if !sameAyah && !isNextAyahFirstWord then none
    else
      let minLen := if isNextAyahFirstWord then 4 else 3
      if w.normalized.length < minLen then
        findAheadAux ref u currentRef currentAyah idx0 (i+1) steps
      else
        let detectThreshold : Nat := if isNextAyahFirstWord then 92 else 85
        if calculateSimilarity u w.normalized ≥ (detectThreshold : ℚ) then some i
        else findAheadAux ref u currentRef currentAyah idx0 (i+1) steps

/-- The skip-marking loop (lines 285-298): mark positions `incorrect` until
the ayah-boundary break condition fires. -/
def markSkipAux (ref : List WordStatus) (currentRef : WordStatus) (currentAyah idx0 : Nat) :
    Nat → Nat → List (Nat × WStatus)
  | _, 0 => []
  | i, steps + 1 =>
    let w := wAt ref i
    let sameAyah := w.ayahIndex == currentAyah
    let isNextAyahFirstWord := currentRef.isLastWord && i == idx0 + 1 &&
      (w.ayahIndex == currentAyah + 1)
    if !sameAyah && !isNextAyahFirstWord then []
    else (i, WStatus.incorrect) :: markSkipAux ref currentRef currentAyah idx0 (i+1) steps

/-- The long-jump best-candidate search (lines 324-343). -/
def longJumpAux (ref : List WordStatus) (u : List Char) (currentAyah : Nat) :
    Nat → Nat → Option Nat × ℚ → Option Nat × ℚ
  | _, 0, best => best
  | i, steps + 1, best =>
    let w := wAt ref i
    if w.ayahIndex ≤ currentAyah + 1 then longJumpAux ref u currentAyah (i+1) steps best
    else if w.ayahIndex > currentAyah + 12 then best
    else if !(isStartAt ref i) then longJumpAux ref u currentAyah (i+1) steps best
    else if w.normalized.length < 4 then longJumpAux ref u currentAyah (i+1) steps best
    else
      let s := calculateSimilarity u w.normalized
      if s > best.2 then longJumpAux ref u currentAyah (i+1) steps (some i, s)
      else longJumpAux ref u currentAyah (i+1) steps best

/-- The unconditional marking loop of the long-jump branch (lines 352-357). -/
def markRange (idx0 count : Nat) : List (Nat × WStatus) :=
  (List.range count).map (fun j => (idx0 + j, WStatus.incorrect))

/-- One iteration of the matching loop (lines 167-374) on hypothesis token
`u` with lookahead token `next`, at cursor `idx`: `none` means the loop
`break`s (defers, consuming nothing); `some (idx', marks)` means `u` is
consumed, the cursor moves to `idx'` and `marks` are the status writes. -/
def stepWord (ref : List WordStatus) (idx : Nat) (u : List Char)
    (next : Option (List Char)) : Option (Nat × List (Nat × WStatus)) :=
  if ref.length ≤ idx then some (idx, [])
  else
    let currentRef := wAt ref idx
    let isAyahStart := isStartAt ref idx
    let baseThreshold : Nat := if isAyahStart then 60 else 40
    let shortWordBoost : Nat := if currentRef.normalized.length ≤ 2 then 20 else 0
    let currentMatchThreshold : Nat := min 85 (baseThreshold + shortWordBoost)
    if calculateSimilarity u currentRef.normalized ≥ (currentMatchThreshold : ℚ) then
      if isAyahStart then
        let nextExpectedStart := (ref[idx+1]?).map (fun w => w.normalized)
        if truthy nextExpectedStart && !(truthy next) then none
        else if truthy nextExpectedStart && truthy next &&
            decide (calculateSimilarity (next.getD []) (nextExpectedStart.getD []) < (45:ℚ)) then
          some (idx, [])
        else some (idx + 1, [(idx, WStatus.correct)])
      else some (idx + 1, [(idx, WStatus.correct)])
    else
      let currentAyah := currentRef.ayahIndex
      match findAheadAux ref u currentRef currentAyah idx (idx+1)
          (min (idx+6) ref.length - (idx+1)) with
      | some k =>
        if !(truthy next) then none
        else
          let nextExpected := (ref[k+1]?).map (fun w => w.normalized)
          let nextSimilarity : ℚ := if truthy nextExpected then
              calculateSimilarity (next.getD []) (nextExpected.getD []) else 0
          let isCrossAyahJump := currentRef.isLastWord &&
            ((wAt ref k).ayahIndex == currentAyah + 1)
          let baseConfirmThreshold : Nat := if isCrossAyahJump then 85 else 70
          let confirmBoost : Nat := if (nextExpected.getD []).length ≤ 2 then 10 else 0
          let requiredConfirm : Nat := min 95 (baseConfirmThreshold + confirmBoost)
          if truthy nextExpected && decide (nextSimilarity ≥ (requiredConfirm : ℚ)) then
            some (k + 1, markSkipAux ref currentRef currentAyah idx idx (k - idx) ++
              [(k, WStatus.correct)])
          else some (idx, [])
      | none =>
        if isAyahStart then
          if !(truthy next) then none
          else
            let best := longJumpAux ref u currentAyah (idx+1) (ref.length - (idx+1)) (none, 0)
            match best.1 with
            | some b =>
              if best.2 ≥ (95:ℚ) then
                let nextExpected := (ref[b+1]?).map (fun w => w.normalized)
                let nextSim : ℚ := if truthy nextExpected then
                    calculateSimilarity (next.getD []) (nextExpected.getD []) else 0
                if !(truthy nextExpected) || nextSim ≥ (60:ℚ) then
                  some (b + 1, markRange idx (b - idx) ++ [(b, WStatus.correct)])
                else some (idx, [])
              else some (idx, [])
            | none => some (idx, [])
        else some (idx, [])

/-- Apply the status writes of one loop iteration to the working copy; the
written record keeps the immutable fields of the original array entry
(`{...wordStatuses[i], status}`). -/
def applyMarks (ref sts : List WordStatus) (marks : List (Nat × WStatus)) : List WordStatus :=
  marks.foldl (fun s m =>
    match ref[m.1]? with
    | some w => s.set m.1 { w with status := m.2 }
    | none => s) sts

/-- The `for`-loop over the new hypothesis tokens (lines 167-374): returns
the final cursor, the working statuses copy, and `processedInThisRun`. -/
def processWords (ref : List WordStatus) : Nat → List WordStatus → List (List Char) →
    Nat × List WordStatus × Nat
  | idx, sts, [] => (idx, sts, 0)
  | idx, sts, u :: rest =>
    match stepWord ref idx u rest.head? with
    | none => (idx, sts, 0)
    | some (idx', marks) =>
      let r := processWords ref idx' (applyMarks ref sts marks) rest
      (r.1, r.2.1, r.2.2 + 1)

structure EngineState where
  wordStatuses : List WordStatus
  currentWordIndex : Nat
  lastProcessedCount : Nat
deriving DecidableEq, Repr

/-- One run of the matching effect (lines 147-384) while listening: the
early returns at lines 148-149 and 158, then the token loop, then the
commit at lines 377-382 (statuses are committed only when the cursor
moved). -/
def advance (st : EngineState) (userWords : List (List Char)) : EngineState :=
  if st.wordStatuses.length = 0 then st
  else if st.wordStatuses.length ≤ st.currentWordIndex then st
  else if userWords.length ≤ st.lastProcessedCount then st
  else
    let r := processWords st.wordStatuses st.currentWordIndex st.wordStatuses
      (userWords.drop st.lastProcessedCount)
    { wordStatuses := if r.1 ≠ st.currentWordIndex then r.2.1 else st.wordStatuses
      currentWordIndex := r.1
      lastProcessedCount := st.lastProcessedCount + r.2.2 }

/-- `String.prototype.split(' ')` on a list of characters. -/
def splitOnSpace : List Char → List (List Char)
  | [] => [[]]
  | c :: cs =>
    let r := splitOnSpace cs
    if c = ' ' then [] :: r
    else
      match r with
      | [] => [[c]]
      | w :: rest => (c :: w) :: rest

/-- Lines 152-154: `normalizeArabic(transcript.trim()).split(' ').filter(w => w.length > 0)`. -/
def tokenize (transcript : List Char) : List (List Char) :=
  (splitOnSpace (normalizeArabic (jsTrim transcript))).filter (fun w => !w.isEmpty)

/-- Lines 124-138: build the word-status records of one ayah. -/
def buildAyahStatuses (ayahIdx : Nat) (text : List Char) : List WordStatus :=
  let ayahWords := (splitOnSpace text).filter (fun w => !w.isEmpty)
  let normalizedWords := (splitOnSpace (normalizeArabic text)).filter (fun w => !w.isEmpty)
  (List.range ayahWords.length).map (fun wordIdx =>
    { word := ayahWords.getD wordIdx []
      normalized := normalizedWords.getD wordIdx []
      status := WStatus.pending
      ayahIndex := ayahIdx
      isLastWord := wordIdx == ayahWords.length - 1 })

def initStatuses (ayahs : List (List Char)) : List WordStatus :=
  ayahs.enum.flatMap (fun p => buildAyahStatuses p.1 p.2)

def initState (ayahs : List (List Char)) : EngineState := ⟨initStatuses ayahs, 0, 0⟩

/-- Lines 392-394: `wordStatuses.length > 0 && currentWordIndex >= wordStatuses.length`. -/
def allComplete (st : EngineState) : Prop :=
  0 < st.wordStatuses.length ∧ st.wordStatuses.length ≤ st.currentWordIndex

instance (st : EngineState) : Decidable (allComplete st) :=
  inferInstanceAs (Decidable (0 < st.wordStatuses.length ∧
    st.wordStatuses.length ≤ st.currentWordIndex))

/-! ### Infrastructure for the engine invariants

The matching loop reads only the immutable fields (`word`, `normalized`,
`ayahIndex`, `isLastWord`) of the word-status array and never its `status`
field, so every decision it takes is invariant under status changes.
`SameFieldsL` captures "equal except possibly in statuses". -/

def sameFields (a b : WordStatus) : Prop :=
  a.word = b.word ∧ a.normalized = b.normalized ∧ a.ayahIndex = b.ayahIndex ∧
    a.isLastWord = b.isLastWord

def SameFieldsL (a b : List WordStatus) : Prop :=
  a.length = b.length ∧ ∀ i, sameFields (wAt a i) (wAt b i)

def advanceSeq (st : EngineState) (buffers : List (List (List Char))) : EngineState :=
  buffers.foldl advance st

/-- The token-loop result of one (non-early-returning) advance call. -/
def advResult (st : EngineState) (userWords : List (List Char)) :
    Nat × List WordStatus × Nat :=
  processWords st.wordStatuses st.currentWordIndex st.wordStatuses
    (userWords.drop st.lastProcessedCount)

/-- Invariant: every reference position strictly below the cursor has a
non-Pending status. -/
def CursorInv (st : EngineState) : Prop :=
  ∀ n, n < st.currentWordIndex → n < st.wordStatuses.length →
    (wAt st.wordStatuses n).status ≠ WStatus.pending

/-! ### Proofs -/

theorem levFuel_congr : ∀ (f g : Nat) (a b : List Char),
    a.length + b.length ≤ f → a.length + b.length ≤ g →
    levFuel f a b = levFuel g a b := by
  intro f
  induction f with
  | zero =>
    intro g a b hf hg
    have ha : a = [] := by cases a <;> simp_all
    have hb : b = [] := by cases b <;> simp_all
    subst ha; subst hb
    cases g <;> rfl
  | succ f ih =>
    intro g a b hf hg
    match a, b with
    | [], [] => cases g <;> rfl
    | [], y :: ys =>
      obtain ⟨g', rfl⟩ : ∃ g', g = g' + 1 := ⟨g - 1, by simp at hg; omega⟩
      rfl
    | x :: xs, [] =>
      obtain ⟨g', rfl⟩ : ∃ g', g = g' + 1 := ⟨g - 1, by simp at hg; omega⟩
      rfl
    | x :: xs, y :: ys =>
      obtain ⟨g', rfl⟩ : ∃ g', g = g' + 1 := ⟨g - 1, by simp at hg; omega⟩
      simp only [List.length_cons] at hf hg
      simp only [levFuel]
      rw [ih g' xs ys (by omega) (by omega),
          ih g' xs (y :: ys) (by simp; omega) (by simp; omega),
          ih g' (x :: xs) ys (by simp; omega) (by simp; omega)]

theorem levenshteinDistance_nil_left (b : List Char) :
    levenshteinDistance [] b = b.length := by
  cases b <;> rfl

theorem levenshteinDistance_nil_right (a : List Char) :
    levenshteinDistance a [] = a.length := by
  cases a <;> rfl

theorem levenshteinDistance_cons_cons (x : Char) (xs : List Char) (y : Char) (ys : List Char) :
    levenshteinDistance (x :: xs) (y :: ys) =
      if x = y then levenshteinDistance xs ys
      else 1 + min (levenshteinDistance xs (y :: ys))
        (min (levenshteinDistance (x :: xs) ys) (levenshteinDistance xs ys)) := by
  show levFuel (_ + 1 + (_ + 1)) _ _ = _
  have h1 : xs.length + 1 + (ys.length + 1) = (xs.length + ys.length + 1) + 1 := by omega
  rw [show xs.length + 1 + (ys.length + 1) = (xs.length + (ys.length + 1)) + 1 by omega]
  simp only [levFuel, List.length_cons]
  unfold levenshteinDistance
  rw [levFuel_congr (xs.length + (ys.length + 1)) (xs.length + ys.length) xs ys
        (by omega) (by omega),
      levFuel_congr (xs.length + (ys.length + 1)) (xs.length + (y :: ys).length) xs (y :: ys)
        (by simp) (by simp),
      levFuel_congr (xs.length + (ys.length + 1)) ((x :: xs).length + ys.length) (x :: xs) ys
        (by simp; omega) (by simp)]

theorem levFuel_symm : ∀ (f : Nat) (a b : List Char), levFuel f a b = levFuel f b a := by
  intro f
  induction f with
  | zero => intro a b; rfl
  | succ f ih =>
    intro a b
    match a, b with
    | [], [] => rfl
    | [], y :: ys => rfl
    | x :: xs, [] => rfl
    | x :: xs, y :: ys =>
      simp only [levFuel]
      by_cases hxy : x = y
      · rw [if_pos hxy, if_pos hxy.symm, ih xs ys]
      · rw [if_neg hxy, if_neg (fun h => hxy h.symm),
          ih xs (y :: ys), ih (x :: xs) ys, ih xs ys]
        omega

theorem levenshteinDistance_symm (a b : List Char) :
    levenshteinDistance a b = levenshteinDistance b a := by
  unfold levenshteinDistance
  rw [levFuel_symm, Nat.add_comm]

theorem levFuel_le_max : ∀ (f : Nat) (a b : List Char), a.length + b.length ≤ f →
    levFuel f a b ≤ max a.length b.length := by
  intro f
  induction f with
  | zero => intro a b h; simp [levFuel]
  | succ f ih =>
    intro a b h
    match a, b with
    | [], [] => simp [levFuel]
    | [], y :: ys => simp [levFuel]
    | x :: xs, [] => simp [levFuel]
    | x :: xs, y :: ys =>
      simp only [List.length_cons] at h ⊢
      simp only [levFuel]
      by_cases hxy : x = y
      · rw [if_pos hxy]
        have := ih xs ys (by omega)
        omega
      · rw [if_neg hxy]
        have h3 := ih xs ys (by omega)
        have h1 := ih xs (y :: ys) (by simp; omega)
        have h2 := ih (x :: xs) ys (by simp; omega)
        simp only [List.length_cons] at h1 h2
        omega

theorem levenshteinDistance_le_max (a b : List Char) :
    levenshteinDistance a b ≤ max a.length b.length :=
  levFuel_le_max _ a b le_rfl

theorem levFuel_eq_zero_iff : ∀ (f : Nat) (a b : List Char), a.length + b.length ≤ f →
    (levFuel f a b = 0 ↔ a = b) := by
  intro f
  induction f with
  | zero =>
    intro a b h
    have ha : a = [] := by cases a <;> simp_all
    have hb : b = [] := by cases b <;> simp_all
    subst ha; subst hb; simp [levFuel]
  | succ f ih =>
    intro a b h
    match a, b with
    | [], [] => simp [levFuel]
    | [], y :: ys => simp [levFuel]
    | x :: xs, [] => simp [levFuel]
    | x :: xs, y :: ys =>
      simp only [List.length_cons] at h
      simp only [levFuel]
      by_cases hxy : x = y
      · rw [if_pos hxy]
        subst hxy
        rw [ih xs ys (by omega)]
        simp
      · rw [if_neg hxy]
        constructor
        · intro hc; omega
        · intro hc
          exact absurd (List.cons.injEq .. ▸ hc).1 hxy

theorem levenshteinDistance_eq_zero_iff (a b : List Char) :
    levenshteinDistance a b = 0 ↔ a = b :=
  levFuel_eq_zero_iff _ a b le_rfl

theorem calculateSimilarity_formula (a b : List Char) (h : max a.length b.length ≠ 0) :
    calculateSimilarity a b =
      100 * ((max a.length b.length : ℚ) - (levenshteinDistance a b : ℚ)) /
        (max a.length b.length : ℚ) := by
  unfold calculateSimilarity
  by_cases hab : a = b
  · subst hab
    rw [if_pos rfl, (levenshteinDistance_eq_zero_iff a a).mpr rfl]
    push_cast
    rw [sub_zero, mul_div_assoc, div_self (by exact_mod_cast h), mul_one]
  · rw [if_neg hab]
    by_cases hz : a.length = 0 ∨ b.length = 0
    · rw [if_pos hz]
      rcases hz with hz | hz
      · have ha : a = [] := List.length_eq_zero.mp hz
        subst ha
        rw [levenshteinDistance_nil_left, List.length_nil, Nat.cast_zero,
          max_eq_right (Nat.cast_nonneg b.length), sub_self, mul_zero, zero_div]
      · have hb : b = [] := List.length_eq_zero.mp hz
        subst hb
        rw [levenshteinDistance_nil_right, List.length_nil, Nat.cast_zero,
          max_eq_left (Nat.cast_nonneg a.length), sub_self, mul_zero, zero_div]
    · rw [if_neg hz, Rat.divInt_eq_div]
      push_cast
      ring

theorem calculateSimilarity_nonneg (a b : List Char) : 0 ≤ calculateSimilarity a b := by
  unfold calculateSimilarity
  split
  · norm_num
  · split
    · exact le_rfl
    · apply Rat.divInt_nonneg
      · have h1 := levenshteinDistance_le_max a b
        have h2 : (levenshteinDistance a b : ℤ) ≤ max (a.length : ℤ) (b.length : ℤ) := by
          exact_mod_cast h1
        nlinarith
      · exact le_trans (Int.ofNat_nonneg a.length) (le_max_left _ _)

theorem calculateSimilarity_le_100 (a b : List Char) : calculateSimilarity a b ≤ 100 := by
  unfold calculateSimilarity
  split
  · exact le_rfl
  · split
    · norm_num
    · rename_i hab hz
      rw [Rat.divInt_eq_div]
      push_cast
      have h1 : a.length ≠ 0 := fun hc => hz (Or.inl hc)
      have hm0 : 0 < max a.length b.length := by omega
      have hm : (0 : ℚ) < max (a.length : ℚ) (b.length : ℚ) := by exact_mod_cast hm0
      rw [div_le_iff₀ hm]
      have hd : (0 : ℚ) ≤ (levenshteinDistance a b : ℚ) := Nat.cast_nonneg _
      nlinarith

theorem calculateSimilarity_self (a : List Char) : calculateSimilarity a a = 100 := by
  unfold calculateSimilarity
  rw [if_pos rfl]

theorem calculateSimilarity_symm (a b : List Char) :
    calculateSimilarity a b = calculateSimilarity b a := by
  by_cases hab : a = b
  · subst hab; rfl
  · unfold calculateSimilarity
    rw [if_neg hab, if_neg (show ¬b = a from fun h => hab h.symm)]
    by_cases hz : a.length = 0 ∨ b.length = 0
    · rw [if_pos hz, if_pos (show b.length = 0 ∨ a.length = 0 from Or.symm hz)]
    · rw [if_neg hz,
        if_neg (show ¬(b.length = 0 ∨ a.length = 0) from fun h => hz (Or.symm h)),
        levenshteinDistance_symm a b, max_comm (a.length : ℤ) (b.length : ℤ)]

theorem calculateSimilarity_eq_100_iff (a b : List Char) :
    calculateSimilarity a b = 100 ↔ a = b := by
  constructor
  · intro h
    by_contra hab
    unfold calculateSimilarity at h
    rw [if_neg hab] at h
    by_cases hz : a.length = 0 ∨ b.length = 0
    · rw [if_pos hz] at h
      norm_num at h
    · rw [if_neg hz, Rat.divInt_eq_div] at h
      push_cast at h
      have hm0 : 0 < max a.length b.length := by
        rcases Nat.eq_zero_or_pos a.length with h0 | h0
        · exact absurd (Or.inl h0) hz
        · omega
      have hm : (0 : ℚ) < max (a.length : ℚ) (b.length : ℚ) := by exact_mod_cast hm0
      rw [div_eq_iff (ne_of_gt hm)] at h
      have hd0 : levenshteinDistance a b ≠ 0 :=
        fun hc => hab ((levenshteinDistance_eq_zero_iff a b).mp hc)
      have hd : (0 : ℚ) < (levenshteinDistance a b : ℚ) := by
        exact_mod_cast Nat.pos_of_ne_zero hd0
      nlinarith
  · intro h; subst h; exact calculateSimilarity_self a

/-- C3: for all strings `a` and `b`, `calculateSimilarity a b` equals
`100 * (maxLen - editDistance a b) / maxLen` (whenever the denominator
`maxLen` is nonzero, i.e. except for the degenerate pair of two empty
strings), lies in `[0, 100]`, satisfies `similarity x x = 100` and
`similarity "" y = 0` for nonempty `y`, is symmetric, and equals 100 iff
`a = b`. -/
theorem claim_C3_similarity (a b : List Char) :
    (max a.length b.length ≠ 0 →
      calculateSimilarity a b =
        100 * ((max a.length b.length : ℚ) - (levenshteinDistance a b : ℚ)) /
          (max a.length b.length : ℚ)) ∧
    0 ≤ calculateSimilarity a b ∧
    calculateSimilarity a b ≤ 100 ∧
    calculateSimilarity a a = 100 ∧
    (a = [] → b ≠ [] → calculateSimilarity a b = 0) ∧
    calculateSimilarity a b = calculateSimilarity b a ∧
    (calculateSimilarity a b = 100 ↔ a = b) := by
  refine ⟨calculateSimilarity_formula a b, calculateSimilarity_nonneg a b,
    calculateSimilarity_le_100 a b, calculateSimilarity_self a, ?_,
    calculateSimilarity_symm a b, calculateSimilarity_eq_100_iff a b⟩
  intro ha hb
  subst ha
  unfold calculateSimilarity
  rw [if_neg (show ¬([] : List Char) = b from fun h => hb h.symm),
    if_pos (show ([] : List Char).length = 0 ∨ b.length = 0 from Or.inl rfl)]

/-- C3 witness: the bundle of similarity properties evaluated at the concrete
pair `("ab", "b")`. -/
theorem claim_C3_similarity_witness :
    (max ("ab".data).length ("b".data).length ≠ 0 →
      calculateSimilarity "ab".data "b".data =
        100 * ((max ("ab".data).length ("b".data).length : ℚ) -
            (levenshteinDistance "ab".data "b".data : ℚ)) /
          (max ("ab".data).length ("b".data).length : ℚ)) ∧
    0 ≤ calculateSimilarity "ab".data "b".data ∧
    calculateSimilarity "ab".data "b".data ≤ 100 ∧
    calculateSimilarity "ab".data "ab".data = 100 ∧
    ("ab".data = [] → "b".data ≠ [] → calculateSimilarity "ab".data "b".data = 0) ∧
    calculateSimilarity "ab".data "b".data = calculateSimilarity "b".data "ab".data ∧
    (calculateSimilarity "ab".data "b".data = 100 ↔ "ab".data = "b".data) :=
  claim_C3_similarity "ab".data "b".data

theorem mem_collapseAux {c : Char} : ∀ (l : List Char) (flag : Bool),
    c ∈ collapseAux flag l → c ∈ l ∨ c = ' ' := by
  intro l
  induction l with
  | nil => intro flag h; exact absurd h (by simp [collapseAux])
  | cons x xs ih =>
    intro flag h
    simp only [collapseAux] at h
    split at h
    · split at h
      · rcases ih true h with h' | h'
        · exact Or.inl (List.mem_cons_of_mem x h')
        · exact Or.inr h'
      · rw [List.mem_cons] at h
        rcases h with h | h
        · exact Or.inr h
        · rcases ih true h with h' | h'
          · exact Or.inl (List.mem_cons_of_mem x h')
          · exact Or.inr h'
    · rw [List.mem_cons] at h
      rcases h with h | h
      · exact Or.inl (by rw [h]; exact List.mem_cons_self x xs)
      · rcases ih false h with h' | h'
        · exact Or.inl (List.mem_cons_of_mem x h')
        · exact Or.inr h'

theorem mem_jsTrim {c : Char} {l : List Char} (h : c ∈ jsTrim l) : c ∈ l := by
  unfold jsTrim at h
  rw [List.mem_reverse] at h
  have h1 := (List.dropWhile_suffix (l := (l.dropWhile isJsWs).reverse) isJsWs).sublist.subset h
  rw [List.mem_reverse] at h1
  exact (List.dropWhile_suffix (l := l) isJsWs).sublist.subset h1

theorem goodChar_normalizeArabic {c : Char} {t : List Char}
    (h : c ∈ normalizeArabic t) : goodChar c = true := by
  unfold normalizeArabic at h
  have h6 := mem_jsTrim h
  rcases mem_collapseAux _ false h6 with h5 | hsp
  case inr => subst hsp; decide
  rw [List.mem_filter] at h5
  obtain ⟨h5, hwaqf⟩ := h5
  rw [List.mem_map] at h5
  obtain ⟨c4, h4, hc4⟩ := h5
  rw [List.mem_map] at h4
  obtain ⟨c3, h3, hc3⟩ := h4
  rw [List.mem_map] at h3
  obtain ⟨c2, h2, hc2⟩ := h3
  rw [List.mem_filter] at h2
  obtain ⟨h1, htat⟩ := h2
  rw [List.mem_filter] at h1
  obtain ⟨_, htash⟩ := h1
  subst hc4
  subst hc3
  subst hc2
  unfold goodChar
  by_cases hv : isHamzaVariant c2 = true
  · simp only [if_pos hv]; decide
  · simp only [if_neg hv]
    by_cases h29 : (c2 == 'ة') = true
    · simp only [if_pos h29]; decide
    · simp only [if_neg h29]
      by_cases h49 : (c2 == 'ى') = true
      · simp only [if_pos h49]; decide
      · simp only [if_neg h49]
        simp only [if_neg hv, if_neg h29, if_neg h49] at hwaqf
        simp only [Bool.not_eq_true] at hv h29 h49
        simp [htash, htat, hv, h29, h49, hwaqf]

theorem filter_eq_self_of_mem {p : Char → Bool} {l : List Char}
    (h : ∀ c ∈ l, p c = true) : l.filter p = l :=
  List.filter_eq_self.mpr h

theorem map_eq_self_of_mem {f : Char → Char} {l : List Char}
    (h : ∀ c ∈ l, f c = c) : l.map f = l := by
  induction l with
  | nil => rfl
  | cons x xs ih =>
    simp only [List.map_cons, h x (List.mem_cons_self x xs),
      ih (fun c hc => h c (List.mem_cons_of_mem x hc))]

/-- On a list of `goodChar` characters the six character-level steps of
`normalizeArabic` do nothing. -/
theorem charSteps_eq_self {l : List Char} (h : ∀ c ∈ l, goodChar c = true) :
    ((((((l.filter (fun c => !isTashkeel c)).filter (fun c => !isTatweel c)).map
      (fun c => if isHamzaVariant c then 'ا' else c)).map
      (fun c => if c == 'ة' then 'ه' else c)).map
      (fun c => if c == 'ى' then 'ي' else c)).filter (fun c => !isWaqfMark c)) = l := by
  have hg : ∀ c ∈ l, (!isTashkeel c && !isTatweel c && !isHamzaVariant c &&
      !(c == 'ة') && !(c == 'ى') && !isWaqfMark c) = true := h
  have e1 : l.filter (fun c => !isTashkeel c) = l := filter_eq_self_of_mem (fun c hc => by
    have := hg c hc; simp only [Bool.and_eq_true] at this; exact this.1.1.1.1.1)
  have e2 : l.filter (fun c => !isTatweel c) = l := filter_eq_self_of_mem (fun c hc => by
    have := hg c hc; simp only [Bool.and_eq_true] at this; exact this.1.1.1.1.2)
  have e3 : l.map (fun c => if isHamzaVariant c then 'ا' else c) = l :=
    map_eq_self_of_mem (fun c hc => by
      have := hg c hc; simp only [Bool.and_eq_true, Bool.not_eq_true'] at this
      rw [if_neg (by simp [this.1.1.1.2])])
  have e4 : l.map (fun c => if c == 'ة' then 'ه' else c) = l :=
    map_eq_self_of_mem (fun c hc => by
      have := hg c hc; simp only [Bool.and_eq_true, Bool.not_eq_true'] at this
      rw [if_neg (by simp [this.1.1.2])])
  have e5 : l.map (fun c => if c == 'ى' then 'ي' else c) = l :=
    map_eq_self_of_mem (fun c hc => by
      have := hg c hc; simp only [Bool.and_eq_true, Bool.not_eq_true'] at this
      rw [if_neg (by simp [this.1.2])])
  have e6 : l.filter (fun c => !isWaqfMark c) = l := filter_eq_self_of_mem (fun c hc => by
    have := hg c hc; simp only [Bool.and_eq_true] at this; exact this.2)
  rw [e1, e2, e3, e4, e5, e6]

theorem normalizeArabic_eq_charSteps (t : List Char) :
    normalizeArabic t = jsTrim (collapseWs (charSteps t)) := rfl

theorem charSteps_eq_self' {l : List Char} (h : ∀ c ∈ l, goodChar c = true) :
    charSteps l = l := charSteps_eq_self h

theorem ws_space_collapseAux {c : Char} : ∀ (l : List Char) (flag : Bool),
    c ∈ collapseAux flag l → isJsWs c = true → c = ' ' := by
  intro l
  induction l with
  | nil => intro flag h; exact absurd h (by simp [collapseAux])
  | cons x xs ih =>
    intro flag h hws
    simp only [collapseAux] at h
    split at h
    · split at h
      · exact ih true h hws
      · rw [List.mem_cons] at h
        rcases h with h | h
        · exact h
        · exact ih true h hws
    · rw [List.mem_cons] at h
      rcases h with h | h
      · rename_i hxw
        exact absurd (h ▸ hws) (by simp [hxw])
      · exact ih false h hws

theorem head?_collapseAux_true {a : Char} : ∀ (l : List Char),
    (collapseAux true l).head? = some a → isJsWs a = false := by
  intro l
  induction l with
  | nil => intro h; exact absurd h (by simp [collapseAux])
  | cons x xs ih =>
    intro h
    simp only [collapseAux] at h
    split at h
    · exact ih h
    · rename_i hxw
      rw [List.head?_cons, Option.some.injEq] at h
      subst h
      exact Bool.not_eq_true _ ▸ hxw

theorem chain_collapseAux : ∀ (l : List Char) (flag : Bool),
    List.Chain' NoWsPair (collapseAux flag l) := by
  intro l
  induction l with
  | nil => intro flag; simp [collapseAux]
  | cons x xs ih =>
    intro flag
    simp only [collapseAux]
    split
    · split
      · exact ih true
      · refine List.chain'_cons'.mpr ⟨?_, ih true⟩
        intro y hy
        intro hcon
        rw [head?_collapseAux_true xs hy] at hcon
        exact absurd hcon.2 (by simp)
    · rename_i hxw
      refine List.chain'_cons'.mpr ⟨?_, ih false⟩
      intro y hy hcon
      exact absurd hcon.1 (by simp [hxw])

theorem collapseAux_true_eq_false {l : List Char}
    (h : ∀ y, l.head? = some y → isJsWs y = false) :
    collapseAux true l = collapseAux false l := by
  cases l with
  | nil => rfl
  | cons x xs =>
    have hx := h x rfl
    simp [collapseAux, hx]

theorem collapseAux_eq_self : ∀ (l : List Char),
    (∀ c ∈ l, isJsWs c = true → c = ' ') → List.Chain' NoWsPair l →
    collapseAux false l = l := by
  intro l
  induction l with
  | nil => intro _ _; rfl
  | cons x xs ih =>
    intro hs hc
    by_cases hxw : isJsWs x = true
    · have hx : x = ' ' := hs x (List.mem_cons_self x xs) hxw
      have hhd : ∀ y, xs.head? = some y → isJsWs y = false := by
        intro y hy
        have := (List.chain'_cons'.mp hc).1 y hy
        unfold NoWsPair at this
        by_contra hyc
        exact this ⟨hxw, by revert hyc; cases isJsWs y <;> simp⟩
      calc collapseAux false (x :: xs) = ' ' :: collapseAux true xs := by
              simp [collapseAux, hxw]
        _ = ' ' :: collapseAux false xs := by rw [collapseAux_true_eq_false hhd]
        _ = ' ' :: xs := by
              rw [ih (fun c hcm hcw => hs c (List.mem_cons_of_mem x hcm) hcw)
                (List.Chain'.tail hc)]
        _ = x :: xs := by rw [hx]
    · calc collapseAux false (x :: xs) = x :: collapseAux false xs := by
              simp [collapseAux, hxw]
        _ = x :: xs := by
              rw [ih (fun c hcm hcw => hs c (List.mem_cons_of_mem x hcm) hcw)
                (List.Chain'.tail hc)]

theorem dropWhile_eq_self_of_head {l : List Char}
    (h : ∀ y, l.head? = some y → isJsWs y = false) :
    l.dropWhile isJsWs = l := by
  cases l with
  | nil => rfl
  | cons x xs => exact List.dropWhile_cons_of_neg (by simp [h x rfl])

theorem jsTrim_eq_self {l : List Char}
    (hh : ∀ y, l.head? = some y → isJsWs y = false)
    (hl : ∀ y, l.getLast? = some y → isJsWs y = false) :
    jsTrim l = l := by
  unfold jsTrim
  rw [dropWhile_eq_self_of_head hh,
    dropWhile_eq_self_of_head (by
      intro y hy
      rw [List.head?_reverse] at hy
      exact hl y hy),
    List.reverse_reverse]

theorem ws_space_out {z : List Char} {c : Char} (h : c ∈ jsTrim (collapseWs z))
    (hws : isJsWs c = true) : c = ' ' :=
  ws_space_collapseAux z false (mem_jsTrim h) hws

theorem chain_out (z : List Char) : List.Chain' NoWsPair (jsTrim (collapseWs z)) := by
  have h0 : List.Chain' NoWsPair (collapseWs z) := chain_collapseAux z false
  have h1 : List.Chain' NoWsPair ((collapseWs z).dropWhile isJsWs) :=
    List.Chain'.suffix h0 (List.dropWhile_suffix isJsWs)
  have hflip : ∀ (m : List Char), List.Chain' NoWsPair m → List.Chain' (flip NoWsPair) m :=
    fun m hm => List.Chain'.imp (fun a b hab => fun hcon => hab ⟨hcon.2, hcon.1⟩) hm
  have h2 : List.Chain' NoWsPair ((collapseWs z).dropWhile isJsWs).reverse :=
    List.chain'_reverse.mpr (hflip _ h1)
  have h3 : List.Chain' NoWsPair (((collapseWs z).dropWhile isJsWs).reverse.dropWhile isJsWs) :=
    List.Chain'.suffix h2 (List.dropWhile_suffix isJsWs)
  exact List.chain'_reverse.mpr (hflip _ h3)

theorem head_out {z : List Char} : ∀ y, (jsTrim (collapseWs z)).head? = some y →
    isJsWs y = false := by
  intro y hy
  unfold jsTrim at hy
  rw [List.head?_reverse] at hy
  obtain ⟨t, ht⟩ :=
    List.dropWhile_suffix (l := ((collapseWs z).dropWhile isJsWs).reverse) isJsWs
  have hne : ((collapseWs z).dropWhile isJsWs).reverse.dropWhile isJsWs ≠ [] := by
    intro hc
    rw [hc] at hy
    exact absurd hy (by simp)
  have h2 : (((collapseWs z).dropWhile isJsWs).reverse).getLast? = some y := by
    rw [← ht, List.getLast?_append_of_ne_nil _ hne]
    exact hy
  rw [List.getLast?_reverse] at h2
  have h3 := List.head?_dropWhile_not isJsWs (collapseWs z)
  rw [h2] at h3
  exact h3

theorem getLast_out {z : List Char} : ∀ y, (jsTrim (collapseWs z)).getLast? = some y →
    isJsWs y = false := by
  intro y hy
  unfold jsTrim at hy
  rw [List.getLast?_reverse] at hy
  have := List.head?_dropWhile_not isJsWs ((collapseWs z).dropWhile isJsWs).reverse
  rw [hy] at this
  exact this

theorem normalizeArabic_eq_self {l : List Char}
    (hgood : ∀ c ∈ l, goodChar c = true)
    (hs : ∀ c ∈ l, isJsWs c = true → c = ' ')
    (hchain : List.Chain' NoWsPair l)
    (hh : ∀ y, l.head? = some y → isJsWs y = false)
    (hl : ∀ y, l.getLast? = some y → isJsWs y = false) :
    normalizeArabic l = l := by
  rw [normalizeArabic_eq_charSteps, charSteps_eq_self' hgood]
  show jsTrim (collapseAux false l) = l
  rw [collapseAux_eq_self l hs hchain]
  exact jsTrim_eq_self hh hl

/-- C10: the normalizer is idempotent — a second pass of `normalizeArabic`
changes nothing, since no rule reintroduces diacritics, tatweel,
hamza/taa-marbuta/alif-maksura variants, waqf marks, or whitespace runs. -/
theorem claim_C10_normalizeArabic_idempotent (s : List Char) :
    normalizeArabic (normalizeArabic s) = normalizeArabic s := by
  have hrfl : normalizeArabic s = jsTrim (collapseWs (charSteps s)) :=
    normalizeArabic_eq_charSteps s
  refine normalizeArabic_eq_self
    (fun c hc => goodChar_normalizeArabic hc)
    (fun c hc hw => ws_space_out (hrfl ▸ hc) hw)
    (hrfl ▸ chain_out (charSteps s))
    (fun y hy => head_out y (by rw [← hrfl]; exact hy))
    (fun y hy => getLast_out y (by rw [← hrfl]; exact hy))

/-- C4: at a segment start, when the single available hypothesis token
matches the first reference token perfectly (similarity 100) but no second
hypothesis token exists yet and a next reference token exists, the engine
defers: position 0 stays Pending, the cursor stays at 0, nothing is
consumed — and once the second token arrives, the match commits. -/
theorem claim_C4_deferred_decision :
    (tokenize "أ".data).length = 1 ∧
    (initStatuses ["أ ب".data]).length = 2 ∧
    calculateSimilarity ((tokenize "أ".data).getD 0 [])
      ((wAt (initStatuses ["أ ب".data]) 0).normalized) = 100 ∧
    advance (initState ["أ ب".data]) (tokenize "أ".data) = initState ["أ ب".data] ∧
    (wAt (advance (initState ["أ ب".data]) (tokenize "أ".data)).wordStatuses 0).status
      = WStatus.pending ∧
    (advance (initState ["أ ب".data]) (tokenize "أ".data)).currentWordIndex = 0 ∧
    (wAt (advance (advance (initState ["أ ب".data]) (tokenize "أ".data))
      (tokenize "أ ب".data)).wordStatuses 0).status = WStatus.correct ∧
    (advance (advance (initState ["أ ب".data]) (tokenize "أ".data))
      (tokenize "أ ب".data)).currentWordIndex = 2 := by
  decide

/-- C5 counterexample: with reference `["بسم","الله"]` and hypothesis
`["بسم"]`, after the FIRST advance call position 0 is still Pending — not
Correct as the claim states — because the ayah-start branch waits for a
confirming second token (RecitePage.tsx lines 198-204). -/
theorem claim_C5_counterexample :
    (wAt (advance (initState ["بسم الله".data]) (tokenize "بسم".data)).wordStatuses 0).status
      ≠ WStatus.correct := by
  decide

/-- C5 amended: the first call defers (both positions Pending, cursor 0,
nothing consumed); after the second call with `["بسم","الله"]` both
positions are Correct, the cursor is 2, and the recitation is complete. -/
theorem claim_C5_amended :
    (wAt (advance (initState ["بسم الله".data]) (tokenize "بسم".data)).wordStatuses 0).status
      = WStatus.pending ∧
    (wAt (advance (initState ["بسم الله".data]) (tokenize "بسم".data)).wordStatuses 1).status
      = WStatus.pending ∧
    (advance (initState ["بسم الله".data]) (tokenize "بسم".data)).currentWordIndex = 0 ∧
    (advance (initState ["بسم الله".data]) (tokenize "بسم".data)).lastProcessedCount = 0 ∧
    (wAt (advance (advance (initState ["بسم الله".data]) (tokenize "بسم".data))
      (tokenize "بسم الله".data)).wordStatuses 0).status = WStatus.correct ∧
    (wAt (advance (advance (initState ["بسم الله".data]) (tokenize "بسم".data))
      (tokenize "بسم الله".data)).wordStatuses 1).status = WStatus.correct ∧
    (advance (advance (initState ["بسم الله".data]) (tokenize "بسم".data))
      (tokenize "بسم الله".data)).currentWordIndex = 2 ∧
    allComplete (advance (advance (initState ["بسم الله".data]) (tokenize "بسم".data))
      (tokenize "بسم الله".data)) := by
  decide

/-- C6 counterexample: with reference `["أ","ب","ج","د"]` and hypothesis
`["أ","ج"]` then `["أ","ج","د"]`, position 1 ("ب") is never marked
Skipped/incorrect — the claim's skip detection does not happen. -/
theorem claim_C6_counterexample :
    (wAt (advance (advance (initState ["أ ب ج د".data]) (tokenize "أ ج".data))
      (tokenize "أ ج د".data)).wordStatuses 1).status ≠ WStatus.incorrect := by
  decide

/-- C6 amended: on this input the engine detects nothing: every
single-character lookahead candidate is below the 3-character minimum
length (line 243-244) and the ayah-start confirmation rejects "ج" against
"ب" (similarity 0 < 45), so after both calls all four positions are still
Pending and the cursor is still 0; the calls merely consume the non-final
tokens as noise (consumed counts 1, then 2). -/
theorem claim_C6_amended :
    (∀ i, i < 4 →
      (wAt (advance (advance (initState ["أ ب ج د".data]) (tokenize "أ ج".data))
        (tokenize "أ ج د".data)).wordStatuses i).status = WStatus.pending) ∧
    (advance (initState ["أ ب ج د".data]) (tokenize "أ ج".data)).currentWordIndex = 0 ∧
    (advance (initState ["أ ب ج د".data]) (tokenize "أ ج".data)).lastProcessedCount = 1 ∧
    (advance (advance (initState ["أ ب ج د".data]) (tokenize "أ ج".data))
      (tokenize "أ ج د".data)).currentWordIndex = 0 ∧
    (advance (advance (initState ["أ ب ج د".data]) (tokenize "أ ج".data))
      (tokenize "أ ج د".data)).lastProcessedCount = 2 := by
  decide

/-- C7 counterexample: with reference `["السلام","عليكم"]` and hypothesis
`["xyz"]`, the consumed-token count stays 0 — the unmatched token is NOT
counted as consumed, contrary to the claim, because the long-jump branch
defers (`break`) when the unmatched token is the last one available at an
ayah start (RecitePage.tsx lines 313-318). -/
theorem claim_C7_counterexample :
    (advance (initState ["السلام عليكم".data]) (tokenize "xyz".data)).lastProcessedCount
      = 0 := by
  decide

/-- C7 amended: an unmatched token at an ayah start with no following
token is deferred, not consumed: with hypothesis `["xyz"]` the state is
completely unchanged.  When a further token follows (`["xyz","abc"]`),
"xyz" is consumed as noise with no status change and no cursor movement
(and the trailing "abc" is again deferred, leaving the count at 1). -/
theorem claim_C7_amended :
    advance (initState ["السلام عليكم".data]) (tokenize "xyz".data)
      = initState ["السلام عليكم".data] ∧
    (advance (initState ["السلام عليكم".data]) (tokenize "xyz abc".data)).wordStatuses
      = initStatuses ["السلام عليكم".data] ∧
    (advance (initState ["السلام عليكم".data]) (tokenize "xyz abc".data)).currentWordIndex
      = 0 ∧
    (advance (initState ["السلام عليكم".data]) (tokenize "xyz abc".data)).lastProcessedCount
      = 1 := by
  decide

/-- C8 counterexample: calling `advance` with a hypothesis-token count
(0) smaller than the already-consumed count (1) does NOT fail: the guard at
RecitePage.tsx line 158 silently returns with the state unchanged, so there
is no invalid-state error — the engine's step function is total and acts as
the identity here. -/
theorem claim_C8_counterexample :
    advance ⟨initStatuses ["أ ب".data], 0, 1⟩ [] = ⟨initStatuses ["أ ب".data], 0, 1⟩ := by
  decide

/-- C8 amended: calling `advance` with a hypothesis-token count at most the
already-consumed count silently leaves the engine state unchanged (early
return), rather than raising any error. -/
theorem claim_C8_amended (st : EngineState) (userWords : List (List Char))
    (h : userWords.length ≤ st.lastProcessedCount) : advance st userWords = st := by
  unfold advance
  split_ifs <;> rfl

theorem sameFields_refl (a : WordStatus) : sameFields a a := ⟨rfl, rfl, rfl, rfl⟩

theorem SameFieldsL_refl (a : List WordStatus) : SameFieldsL a a :=
  ⟨rfl, fun _ => sameFields_refl _⟩

theorem SameFieldsL_symm {a b : List WordStatus} (h : SameFieldsL a b) : SameFieldsL b a :=
  ⟨h.1.symm, fun i =>
    ⟨(h.2 i).1.symm, (h.2 i).2.1.symm, (h.2 i).2.2.1.symm, (h.2 i).2.2.2.symm⟩⟩

theorem getElem?_eq_wAt {l : List WordStatus} {i : Nat} (h : i < l.length) :
    l[i]? = some (wAt l i) := by
  rw [wAt, List.getD_eq_getElem?_getD, List.getElem?_eq_getElem h]
  rfl

theorem wAt_normalized {a b : List WordStatus} (h : SameFieldsL a b) (i : Nat) :
    (wAt a i).normalized = (wAt b i).normalized := (h.2 i).2.1

theorem wAt_ayah {a b : List WordStatus} (h : SameFieldsL a b) (i : Nat) :
    (wAt a i).ayahIndex = (wAt b i).ayahIndex := (h.2 i).2.2.1

theorem wAt_last {a b : List WordStatus} (h : SameFieldsL a b) (i : Nat) :
    (wAt a i).isLastWord = (wAt b i).isLastWord := (h.2 i).2.2.2

theorem getElem?_map_normalized {a b : List WordStatus} (h : SameFieldsL a b) (i : Nat) :
    (a[i]?).map (fun w => w.normalized) = (b[i]?).map (fun w => w.normalized) := by
  by_cases hi : i < a.length
  · rw [getElem?_eq_wAt hi, getElem?_eq_wAt (h.1 ▸ hi), Option.map_some', Option.map_some',
      wAt_normalized h i]
  · rw [List.getElem?_eq_none (by omega), List.getElem?_eq_none (by rw [← h.1]; omega)]

theorem getElem?_elim_isLastWord {a b : List WordStatus} (h : SameFieldsL a b) (i : Nat) :
    (a[i]?).elim false (fun w => w.isLastWord) = (b[i]?).elim false (fun w => w.isLastWord) := by
  by_cases hi : i < a.length
  · rw [getElem?_eq_wAt hi, getElem?_eq_wAt (h.1 ▸ hi)]
    exact wAt_last h i
  · rw [List.getElem?_eq_none (by omega), List.getElem?_eq_none (by rw [← h.1]; omega)]

theorem isStartAt_congr {a b : List WordStatus} (h : SameFieldsL a b) (i : Nat) :
    isStartAt a i = isStartAt b i := by
  unfold isStartAt
  rw [getElem?_elim_isLastWord h (i-1)]

theorem findAheadAux_congr {a b : List WordStatus} (h : SameFieldsL a b) (u : List Char)
    {cr cr' : WordStatus} (hcr : cr.isLastWord = cr'.isLastWord) (ca idx0 : Nat) :
    ∀ (steps i : Nat),
      findAheadAux a u cr ca idx0 i steps = findAheadAux b u cr' ca idx0 i steps := by
  intro steps
  induction steps with
  | zero => intro i; rfl
  | succ s ih =>
    intro i
    simp only [findAheadAux]
    rw [wAt_ayah h i, wAt_normalized h i, hcr, ih (i+1)]

theorem markSkipAux_congr {a b : List WordStatus} (h : SameFieldsL a b)
    {cr cr' : WordStatus} (hcr : cr.isLastWord = cr'.isLastWord) (ca idx0 : Nat) :
    ∀ (steps i : Nat),
      markSkipAux a cr ca idx0 i steps = markSkipAux b cr' ca idx0 i steps := by
  intro steps
  induction steps with
  | zero => intro i; rfl
  | succ s ih =>
    intro i
    simp only [markSkipAux]
    rw [wAt_ayah h i, hcr, ih (i+1)]

theorem longJumpAux_congr {a b : List WordStatus} (h : SameFieldsL a b) (u : List Char)
    (ca : Nat) : ∀ (steps i : Nat) (best : Option Nat × ℚ),
      longJumpAux a u ca i steps best = longJumpAux b u ca i steps best := by
  intro steps
  induction steps with
  | zero => intro i best; rfl
  | succ s ih =>
    intro i best
    simp only [longJumpAux]
    rw [wAt_ayah h i, isStartAt_congr h i, wAt_normalized h i]
    simp only [ih]

theorem stepWord_congr {a b : List WordStatus} (h : SameFieldsL a b) (idx : Nat)
    (u : List Char) (next : Option (List Char)) :
    stepWord a idx u next = stepWord b idx u next := by
  have hfa : ∀ (u' : List Char) (ca idx0 i s : Nat),
      findAheadAux a u' (wAt a idx) ca idx0 i s = findAheadAux b u' (wAt b idx) ca idx0 i s :=
    fun u' ca idx0 i s => findAheadAux_congr h u' (wAt_last h idx) ca idx0 s i
  have hms : ∀ (ca idx0 i s : Nat),
      markSkipAux a (wAt a idx) ca idx0 i s = markSkipAux b (wAt b idx) ca idx0 i s :=
    fun ca idx0 i s => markSkipAux_congr h (wAt_last h idx) ca idx0 s i
  have hlj : ∀ (u' : List Char) (ca i s : Nat) (best : Option Nat × ℚ),
      longJumpAux a u' ca i s best = longJumpAux b u' ca i s best :=
    fun u' ca i s best => longJumpAux_congr h u' ca s i best
  simp only [stepWord, h.1, wAt_normalized h, wAt_ayah h, wAt_last h, isStartAt_congr h,
    getElem?_map_normalized h, hfa, hms, hlj]

/-- One fold step of `applyMarks`. -/
theorem applyMarks_cons (ref sts : List WordStatus) (m : Nat × WStatus)
    (rest : List (Nat × WStatus)) :
    applyMarks ref sts (m :: rest) =
      applyMarks ref
        (match ref[m.1]? with
          | some w => sts.set m.1 { w with status := m.2 }
          | none => sts) rest := rfl

theorem applyMarks_length (ref : List WordStatus) :
    ∀ (ms : List (Nat × WStatus)) (sts : List WordStatus),
      (applyMarks ref sts ms).length = sts.length := by
  intro ms
  induction ms with
  | nil => intro sts; rfl
  | cons m rest ih =>
    intro sts
    rw [applyMarks_cons]
    cases href : ref[m.1]? with
    | none => rw [ih]
    | some w => rw [ih, List.length_set]

theorem wAt_set_self {l : List WordStatus} {i : Nat} (h : i < l.length) (x : WordStatus) :
    wAt (l.set i x) i = x := by
  rw [wAt, List.getD_eq_getElem?_getD, List.getElem?_set_eq h]
  rfl

theorem wAt_set_ne {l : List WordStatus} {i j : Nat} (h : i ≠ j) (x : WordStatus) :
    wAt (l.set i x) j = wAt l j := by
  rw [wAt, wAt, List.getD_eq_getElem?_getD, List.getD_eq_getElem?_getD,
    List.getElem?_set_ne h]

theorem applyMarks_sameFields {ref : List WordStatus} :
    ∀ (ms : List (Nat × WStatus)) (sts : List WordStatus), SameFieldsL ref sts →
      SameFieldsL ref (applyMarks ref sts ms) := by
  intro ms
  induction ms with
  | nil => intro sts h; exact h
  | cons m rest ih =>
    intro sts h
    rw [applyMarks_cons]
    cases href : ref[m.1]? with
    | none => exact ih sts h
    | some w =>
      refine ih _ ⟨by rw [List.length_set]; exact h.1, fun i => ?_⟩
      have hm : m.1 < ref.length := by
        by_contra hc
        rw [List.getElem?_eq_none (by omega)] at href
        exact Option.noConfusion href
      by_cases hi : m.1 = i
      · subst hi
        have hlt : m.1 < sts.length := h.1 ▸ hm
        rw [wAt_set_self hlt]
        have hw : w = wAt ref m.1 := by
          have h2 := getElem?_eq_wAt hm
          rw [href] at h2
          exact Option.some.inj h2
        rw [hw]
        exact ⟨rfl, rfl, rfl, rfl⟩
      · rw [wAt_set_ne hi]
        exact h.2 i

theorem applyMarks_untouched {ref : List WordStatus} {j : Nat} :
    ∀ (ms : List (Nat × WStatus)) (sts : List WordStatus), (∀ s, (j, s) ∉ ms) →
      wAt (applyMarks ref sts ms) j = wAt sts j := by
  intro ms
  induction ms with
  | nil => intro sts _; rfl
  | cons m rest ih =>
    intro sts hnot
    have hne : m.1 ≠ j := by
      intro hc
      exact hnot m.2 (by rw [← hc]; exact List.mem_cons_self _ _)
    rw [applyMarks_cons]
    cases href : ref[m.1]? with
    | none => exact ih sts (fun s hs => hnot s (List.mem_cons_of_mem _ hs))
    | some w =>
      rw [ih _ (fun s hs => hnot s (List.mem_cons_of_mem _ hs)), wAt_set_ne hne]

theorem applyMarks_status_mono {ref : List WordStatus} {j : Nat} :
    ∀ (ms : List (Nat × WStatus)) (sts : List WordStatus),
      (∀ p ∈ ms, p.2 ≠ WStatus.pending) →
      (wAt sts j).status ≠ WStatus.pending →
      (wAt (applyMarks ref sts ms) j).status ≠ WStatus.pending := by
  intro ms
  induction ms with
  | nil => intro sts _ h; exact h
  | cons m rest ih =>
    intro sts hnp h
    rw [applyMarks_cons]
    cases href : ref[m.1]? with
    | none => exact ih sts (fun p hp => hnp p (List.mem_cons_of_mem _ hp)) h
    | some w =>
      refine ih _ (fun p hp => hnp p (List.mem_cons_of_mem _ hp)) ?_
      by_cases hi : m.1 = j
      · subst hi
        by_cases hlt : m.1 < sts.length
        · rw [wAt_set_self hlt]
          exact hnp m (List.mem_cons_self _ _)
        · rw [wAt, List.getD_eq_getElem?_getD,
            List.getElem?_eq_none (by rw [List.length_set]; omega)]
          rw [wAt, List.getD_eq_getElem?_getD, List.getElem?_eq_none (by omega)] at h
          exact h
      · rw [wAt_set_ne hi]
        exact h

theorem applyMarks_mem_nonpending {ref : List WordStatus} {j : Nat} :
    ∀ (ms : List (Nat × WStatus)) (sts : List WordStatus),
      (∃ s, (j, s) ∈ ms) → (∀ p ∈ ms, p.2 ≠ WStatus.pending) →
      j < ref.length → sts.length = ref.length →
      (wAt (applyMarks ref sts ms) j).status ≠ WStatus.pending := by
  intro ms
  induction ms with
  | nil => intro sts hmem _ _ _; exact absurd hmem.choose_spec (List.not_mem_nil _)
  | cons m rest ih =>
    intro sts hmem hnp hj hlen
    by_cases hr : ∃ s, (j, s) ∈ rest
    · rw [applyMarks_cons]
      cases href : ref[m.1]? with
      | none => exact ih sts hr (fun p hp => hnp p (List.mem_cons_of_mem _ hp)) hj hlen
      | some w =>
        exact ih _ hr (fun p hp => hnp p (List.mem_cons_of_mem _ hp)) hj
          (by rw [List.length_set]; exact hlen)
    · obtain ⟨s, hs⟩ := hmem
      rw [List.mem_cons] at hs
      rcases hs with hs | hs
      · have hj1 : m.1 = j := by rw [← hs]
        have hm : m.1 < ref.length := by omega
        rw [applyMarks_cons]
        cases href : ref[m.1]? with
        | none =>
          rw [List.getElem?_eq_none_iff] at href
          omega
        | some w =>
          rw [applyMarks_untouched rest _ (fun s' hs' => hr ⟨s', hs'⟩), ← hj1,
            wAt_set_self (by omega)]
          exact hnp m (List.mem_cons_self _ _)
      · exact absurd hs (fun hc => hr ⟨s, hc⟩)

theorem findAheadAux_spec (ref : List WordStatus) (u : List Char) (cr : WordStatus)
    (ca idx0 : Nat) : ∀ (steps i k : Nat),
    findAheadAux ref u cr ca idx0 i steps = some k →
    i ≤ k ∧ k < i + steps ∧
    ∀ j, i ≤ j → j ≤ k →
      (!((wAt ref j).ayahIndex == ca) &&
        !(cr.isLastWord && j == idx0 + 1 && ((wAt ref j).ayahIndex == ca + 1))) = false := by
  intro steps
  induction steps with
  | zero => intro i k hk; exact Option.noConfusion hk
  | succ s ih =>
    intro i k hk
    simp only [findAheadAux] at hk
    split at hk
    · exact Option.noConfusion hk
    · rename_i hbreak
      rw [Bool.not_eq_true] at hbreak
      have hrec : findAheadAux ref u cr ca idx0 (i+1) s = some k →
          i ≤ k ∧ k < i + (s+1) ∧
          ∀ j, i ≤ j → j ≤ k →
            (!((wAt ref j).ayahIndex == ca) &&
              !(cr.isLastWord && j == idx0 + 1 && ((wAt ref j).ayahIndex == ca + 1))) = false := by
        intro hk'
        obtain ⟨h1, h2, h3⟩ := ih (i+1) k hk'
        refine ⟨by omega, by omega, fun j hj1 hj2 => ?_⟩
        rcases Nat.eq_or_lt_of_le hj1 with hj | hj
        · subst hj
          exact hbreak
        · exact h3 j (by omega) hj2
      have hself : some i = some k →
          i ≤ k ∧ k < i + (s+1) ∧
          ∀ j, i ≤ j → j ≤ k →
            (!((wAt ref j).ayahIndex == ca) &&
              !(cr.isLastWord && j == idx0 + 1 && ((wAt ref j).ayahIndex == ca + 1))) = false := by
        intro hk'
        have hik : i = k := Option.some.inj hk'
        subst hik
        refine ⟨le_rfl, by omega, fun j hj1 hj2 => ?_⟩
        have hj : j = i := by omega
        subst hj
        exact hbreak
      split at hk
      · split at hk
        · exact hrec hk
        · split at hk
          · exact hself hk
          · exact hrec hk
      · split at hk
        · exact hrec hk
        · split at hk
          · exact hself hk
          · exact hrec hk

theorem markSkipAux_status (ref : List WordStatus) (cr : WordStatus) (ca idx0 : Nat) :
    ∀ (steps i : Nat) (p : Nat × WStatus), p ∈ markSkipAux ref cr ca idx0 i steps →
      p.2 = WStatus.incorrect := by
  intro steps
  induction steps with
  | zero => intro i p hp; exact absurd hp (List.not_mem_nil p)
  | succ s ih =>
    intro i p hp
    simp only [markSkipAux] at hp
    split at hp
    · exact absurd hp (List.not_mem_nil p)
    · rw [List.mem_cons] at hp
      rcases hp with hp | hp
      · rw [hp]
      · exact ih (i+1) p hp

theorem markSkipAux_mem (ref : List WordStatus) (cr : WordStatus) (ca idx0 : Nat) :
    ∀ (steps i : Nat),
    (∀ j, i ≤ j → j < i + steps →
      (!((wAt ref j).ayahIndex == ca) &&
        !(cr.isLastWord && j == idx0 + 1 && ((wAt ref j).ayahIndex == ca + 1))) = false) →
    ∀ j, i ≤ j → j < i + steps → (j, WStatus.incorrect) ∈ markSkipAux ref cr ca idx0 i steps := by
  intro steps
  induction steps with
  | zero => intro i _ j hj1 hj2; omega
  | succ s ih =>
    intro i hcond j hj1 hj2
    simp only [markSkipAux]
    rw [if_neg (by rw [hcond i le_rfl (by omega)]; simp)]
    rcases Nat.eq_or_lt_of_le hj1 with hj | hj
    · rw [← hj]
      exact List.mem_cons_self _ _
    · exact List.mem_cons_of_mem _
        (ih (i+1) (fun j' hj1' hj2' => hcond j' (by omega) (by omega)) j (by omega) (by omega))

theorem longJumpAux_spec (ref : List WordStatus) (u : List Char) (ca : Nat) :
    ∀ (steps i : Nat) (best : Option Nat × ℚ) (b : Nat),
    (longJumpAux ref u ca i steps best).1 = some b →
    best.1 = some b ∨ (i ≤ b ∧ b < i + steps) := by
  intro steps
  induction steps with
  | zero => intro i best b hb; exact Or.inl hb
  | succ s ih =>
    intro i best b hb
    simp only [longJumpAux] at hb
    split at hb
    · rcases ih (i+1) best b hb with h | h
      · exact Or.inl h
      · exact Or.inr (by omega)
    · split at hb
      · exact Or.inl hb
      · split at hb
        · rcases ih (i+1) best b hb with h | h
          · exact Or.inl h
          · exact Or.inr (by omega)
        · split at hb
          · rcases ih (i+1) best b hb with h | h
            · exact Or.inl h
            · exact Or.inr (by omega)
          · split at hb
            · rcases ih (i+1) _ b hb with h | h
              · rw [Option.some.injEq] at h
                exact Or.inr (by omega)
              · exact Or.inr (by omega)
            · rcases ih (i+1) best b hb with h | h
              · exact Or.inl h
              · exact Or.inr (by omega)

theorem markRange_status {idx0 count : Nat} {p : Nat × WStatus} (hp : p ∈ markRange idx0 count) :
    p.2 = WStatus.incorrect := by
  unfold markRange at hp
  rw [List.mem_map] at hp
  obtain ⟨j, _, hj⟩ := hp
  rw [← hj]

theorem markRange_mem {idx0 count j : Nat} (h1 : idx0 ≤ j) (h2 : j < idx0 + count) :
    (j, WStatus.incorrect) ∈ markRange idx0 count := by
  unfold markRange
  rw [List.mem_map]
  exact ⟨j - idx0, List.mem_range.mpr (by omega), by rw [Nat.add_sub_cancel' h1]⟩

theorem stepWord_none_lt {ref : List WordStatus} {idx : Nat} {u : List Char}
    {next : Option (List Char)} (h : stepWord ref idx u next = none) : idx < ref.length := by
  by_cases hg : ref.length ≤ idx
  · rw [stepWord, if_pos hg] at h
    exact Option.noConfusion h
  · omega

theorem stepWord_some_spec {ref : List WordStatus} {idx : Nat} {u : List Char}
    {next : Option (List Char)} {idx' : Nat} {marks : List (Nat × WStatus)}
    (h : stepWord ref idx u next = some (idx', marks)) :
    idx ≤ idx' ∧ (idx' = idx ∨ idx' ≤ ref.length) ∧
    (∀ p ∈ marks, p.2 ≠ WStatus.pending) ∧
    (∀ j, idx ≤ j → j < idx' → ∃ s, (j, s) ∈ marks) := by
  simp only [stepWord] at h
  by_cases hg : ref.length ≤ idx
  · rw [if_pos hg] at h
    rw [Option.some.injEq, Prod.mk.injEq] at h
    obtain ⟨h1x, h2x⟩ := h
    subst h1x
    subst h2x
    exact ⟨le_rfl, Or.inl rfl, fun p hp => absurd hp (List.not_mem_nil p),
      fun j h1 h2 => by omega⟩
  · rw [if_neg hg] at h
    cases hfa : findAheadAux ref u (wAt ref idx) ((wAt ref idx).ayahIndex) idx (idx+1)
        (min (idx+6) ref.length - (idx+1)) with
    | some k =>
      simp only [hfa] at h
      obtain ⟨hk1, hk2, hcond⟩ := findAheadAux_spec ref u (wAt ref idx)
        ((wAt ref idx).ayahIndex) idx _ _ k hfa
      repeat' split at h
      all_goals first
        | exact Option.noConfusion h
        | (rw [Option.some.injEq, Prod.mk.injEq] at h
           obtain ⟨h1x, h2x⟩ := h
           subst h1x
           subst h2x
           first
           | exact ⟨le_rfl, Or.inl rfl, fun p hp => absurd hp (List.not_mem_nil p),
               fun j h1 h2 => by omega⟩
           | exact ⟨by omega, Or.inr (by omega),
               by
                 intro p hp
                 rw [List.mem_singleton] at hp
                 subst hp
                 simp,
               by
                 intro j h1 h2
                 have hj : j = idx := by omega
                 subst hj
                 exact ⟨WStatus.correct, List.mem_singleton.mpr rfl⟩⟩
           | exact ⟨by omega, Or.inr (by omega),
               by
                 intro p hp
                 rw [List.mem_append] at hp
                 rcases hp with hp | hp
                 · rw [markSkipAux_status ref (wAt ref idx) ((wAt ref idx).ayahIndex)
                     idx _ _ p hp]
                   simp
                 · rw [List.mem_singleton] at hp
                   subst hp
                   simp,
               by
                 intro j h1 h2
                 rcases Nat.lt_or_ge j k with hj | hj
                 · refine ⟨WStatus.incorrect, List.mem_append_left _ ?_⟩
                   refine markSkipAux_mem ref (wAt ref idx) ((wAt ref idx).ayahIndex) idx
                     (k - idx) idx (fun j' hj1' hj2' => ?_) j h1 (by omega)
                   rcases Nat.eq_or_lt_of_le hj1' with hj' | hj'
                   · subst hj'
                     simp
                   · exact hcond j' (by omega) (by omega)
                 · have hjk : j = k := by omega
                   subst hjk
                   exact ⟨WStatus.correct,
                     List.mem_append_right _ (List.mem_singleton.mpr rfl)⟩⟩)
    | none =>
      simp only [hfa] at h
      cases hbest : (longJumpAux ref u ((wAt ref idx).ayahIndex) (idx+1)
          (ref.length - (idx+1)) (none, 0)).1 with
      | some b =>
        simp only [hbest] at h
        have hb0 := longJumpAux_spec ref u ((wAt ref idx).ayahIndex)
          (ref.length - (idx+1)) (idx+1) (none, 0) b hbest
        have hb2 : idx + 1 ≤ b ∧ b < (idx+1) + (ref.length - (idx+1)) := by
          rcases hb0 with hb0 | hb0
          · exact Option.noConfusion hb0
          · exact hb0
        repeat' split at h
        all_goals first
          | exact Option.noConfusion h
          | (rw [Option.some.injEq, Prod.mk.injEq] at h
             obtain ⟨h1x, h2x⟩ := h
             subst h1x
             subst h2x
             first
             | exact ⟨le_rfl, Or.inl rfl, fun p hp => absurd hp (List.not_mem_nil p),
                 fun j h1 h2 => by omega⟩
             | exact ⟨by omega, Or.inr (by omega),
                 by
                   intro p hp
                   rw [List.mem_singleton] at hp
                   subst hp
                   simp,
                 by
                   intro j h1 h2
                   have hj : j = idx := by omega
                   subst hj
                   exact ⟨WStatus.correct, List.mem_singleton.mpr rfl⟩⟩
             | exact ⟨by omega, Or.inr (by omega),
                 by
                   intro p hp
                   rw [List.mem_append] at hp
                   rcases hp with hp | hp
                   · rw [markRange_status hp]
                     simp
                   · rw [List.mem_singleton] at hp
                     subst hp
                     simp,
                 by
                   intro j h1 h2
                   rcases Nat.lt_or_ge j b with hj | hj
                   · exact ⟨WStatus.incorrect,
                       List.mem_append_left _ (markRange_mem h1 (by omega))⟩
                   · have hjb : j = b := by omega
                     subst hjb
                     exact ⟨WStatus.correct,
                       List.mem_append_right _ (List.mem_singleton.mpr rfl)⟩⟩)
      | none =>
        simp only [hbest] at h
        repeat' split at h
        all_goals first
          | exact Option.noConfusion h
          | (rw [Option.some.injEq, Prod.mk.injEq] at h
             obtain ⟨h1x, h2x⟩ := h
             subst h1x
             subst h2x
             first
             | exact ⟨le_rfl, Or.inl rfl, fun p hp => absurd hp (List.not_mem_nil p),
                 fun j h1 h2 => by omega⟩
             | exact ⟨by omega, Or.inr (by omega),
                 by
                   intro p hp
                   rw [List.mem_singleton] at hp
                   subst hp
                   simp,
                 by
                   intro j h1 h2
                   have hj : j = idx := by omega
                   subst hj
                   exact ⟨WStatus.correct, List.mem_singleton.mpr rfl⟩⟩)

theorem processWords_length (ref : List WordStatus) :
    ∀ (ws : List (List Char)) (idx : Nat) (sts : List WordStatus),
      (processWords ref idx sts ws).2.1.length = sts.length := by
  intro ws
  induction ws with
  | nil => intro idx sts; rfl
  | cons u rest ih =>
    intro idx sts
    cases hstep : stepWord ref idx u rest.head? with
    | none => simp only [processWords, hstep]
    | some p =>
      obtain ⟨i1, ms⟩ := p
      simp only [processWords, hstep]
      rw [ih, applyMarks_length]

theorem processWords_idx_le (ref : List WordStatus) :
    ∀ (ws : List (List Char)) (idx : Nat) (sts : List WordStatus),
      idx ≤ (processWords ref idx sts ws).1 := by
  intro ws
  induction ws with
  | nil => intro idx sts; exact le_rfl
  | cons u rest ih =>
    intro idx sts
    cases hstep : stepWord ref idx u rest.head? with
    | none => simp only [processWords, hstep]; exact le_rfl
    | some p =>
      obtain ⟨i1, ms⟩ := p
      simp only [processWords, hstep]
      exact le_trans (stepWord_some_spec hstep).1 (ih i1 _)

theorem processWords_sameFields (ref : List WordStatus) :
    ∀ (ws : List (List Char)) (idx : Nat) (sts : List WordStatus), SameFieldsL ref sts →
      SameFieldsL ref (processWords ref idx sts ws).2.1 := by
  intro ws
  induction ws with
  | nil => intro idx sts h; exact h
  | cons u rest ih =>
    intro idx sts h
    cases hstep : stepWord ref idx u rest.head? with
    | none => simp only [processWords, hstep]; exact h
    | some p =>
      obtain ⟨i1, ms⟩ := p
      simp only [processWords, hstep]
      exact ih i1 _ (applyMarks_sameFields ms sts h)

theorem processWords_status_mono (ref : List WordStatus) :
    ∀ (ws : List (List Char)) (idx : Nat) (sts : List WordStatus) (n : Nat),
      (wAt sts n).status ≠ WStatus.pending →
      (wAt (processWords ref idx sts ws).2.1 n).status ≠ WStatus.pending := by
  intro ws
  induction ws with
  | nil => intro idx sts n h; exact h
  | cons u rest ih =>
    intro idx sts n h
    cases hstep : stepWord ref idx u rest.head? with
    | none => simp only [processWords, hstep]; exact h
    | some p =>
      obtain ⟨i1, ms⟩ := p
      simp only [processWords, hstep]
      exact ih i1 _ n (applyMarks_status_mono ms sts (stepWord_some_spec hstep).2.2.1 h)

theorem processWords_count_le (ref : List WordStatus) :
    ∀ (ws : List (List Char)) (idx : Nat) (sts : List WordStatus),
      (processWords ref idx sts ws).2.2 ≤ ws.length := by
  intro ws
  induction ws with
  | nil => intro idx sts; exact le_rfl
  | cons u rest ih =>
    intro idx sts
    cases hstep : stepWord ref idx u rest.head? with
    | none => simp only [processWords, hstep]; simp
    | some p =>
      obtain ⟨i1, ms⟩ := p
      simp only [processWords, hstep, List.length_cons]
      exact Nat.add_le_add_right (ih i1 _) 1

/-- Either the whole token list is consumed, or the run stops at the first
deferring token, which is then the next unconsumed one. -/
theorem processWords_spec (ref : List WordStatus) :
    ∀ (ws : List (List Char)) (idx : Nat) (sts : List WordStatus),
      (processWords ref idx sts ws).2.2 = ws.length ∨
      ((processWords ref idx sts ws).2.2 < ws.length ∧
        stepWord ref (processWords ref idx sts ws).1
          (ws.getD (processWords ref idx sts ws).2.2 [])
          (ws[(processWords ref idx sts ws).2.2 + 1]?) = none) := by
  intro ws
  induction ws with
  | nil => intro idx sts; exact Or.inl rfl
  | cons u rest ih =>
    intro idx sts
    cases hstep : stepWord ref idx u rest.head? with
    | none =>
      simp only [processWords, hstep]
      refine Or.inr ⟨by simp, ?_⟩
      rw [List.head?_eq_getElem?] at hstep
      rw [List.getD_cons_zero, List.getElem?_cons_succ]
      exact hstep
    | some p =>
      obtain ⟨i1, ms⟩ := p
      simp only [processWords, hstep]
      rcases ih i1 (applyMarks ref sts ms) with hc | ⟨hc1, hc2⟩
      · exact Or.inl (by rw [hc, List.length_cons])
      · refine Or.inr ⟨by rw [List.length_cons]; omega, ?_⟩
        rw [List.getD_cons_succ, List.getElem?_cons_succ]
        exact hc2

/-- One advance call never decreases the consumed count or the cursor and
never turns a non-Pending status back into Pending. -/
theorem advance_mono (st : EngineState) (userWords : List (List Char)) :
    st.lastProcessedCount ≤ (advance st userWords).lastProcessedCount ∧
    st.currentWordIndex ≤ (advance st userWords).currentWordIndex ∧
    ∀ n, (wAt st.wordStatuses n).status ≠ WStatus.pending →
      (wAt (advance st userWords).wordStatuses n).status ≠ WStatus.pending := by
  unfold advance
  split_ifs with g1 g2 g3
  · exact ⟨le_rfl, le_rfl, fun n h => h⟩
  · exact ⟨le_rfl, le_rfl, fun n h => h⟩
  · exact ⟨le_rfl, le_rfl, fun n h => h⟩
  · refine ⟨Nat.le_add_right _ _, processWords_idx_le _ _ _ _, fun n h => ?_⟩
    show (wAt (if _ ≠ _ then _ else st.wordStatuses) n).status ≠ WStatus.pending
    split
    · exact processWords_status_mono _ _ _ _ n h
    · exact h

theorem advance_stuck {st : EngineState} {userWords : List (List Char)}
    (h : userWords.length ≤ st.lastProcessedCount) : advance st userWords = st := by
  unfold advance
  split_ifs <;> rfl

theorem advance_eq (st : EngineState) (userWords : List (List Char))
    (h1 : ¬ st.wordStatuses.length = 0)
    (h2 : ¬ st.wordStatuses.length ≤ st.currentWordIndex)
    (h3 : ¬ userWords.length ≤ st.lastProcessedCount) :
    advance st userWords =
      ⟨if (advResult st userWords).1 ≠ st.currentWordIndex
          then (advResult st userWords).2.1 else st.wordStatuses,
        (advResult st userWords).1,
        st.lastProcessedCount + (advResult st userWords).2.2⟩ := by
  unfold advance advResult
  rw [if_neg h1, if_neg h2, if_neg h3]

theorem advanceSeq_mono (buffers : List (List (List Char))) :
    ∀ (st : EngineState),
    st.lastProcessedCount ≤ (advanceSeq st buffers).lastProcessedCount ∧
    st.currentWordIndex ≤ (advanceSeq st buffers).currentWordIndex ∧
    ∀ n, (wAt st.wordStatuses n).status ≠ WStatus.pending →
      (wAt (advanceSeq st buffers).wordStatuses n).status ≠ WStatus.pending := by
  induction buffers with
  | nil => intro st; exact ⟨le_rfl, le_rfl, fun n h => h⟩
  | cons b rest ih =>
    intro st
    have h1 := advance_mono st b
    have h2 := ih (advance st b)
    exact ⟨le_trans h1.1 h2.1, le_trans h1.2.1 h2.2.1,
      fun n h => h2.2.2 n (h1.2.2 n h)⟩

/-- C1: across any sequence of advance calls on a growing hypothesis buffer
(each buffer a prefix of the next, no reset), the cursor never decreases,
the consumed-token count never decreases, and no non-Pending position ever
returns to Pending.  (As the per-call lemma `advance_mono` shows, the engine
in fact guarantees this for arbitrary buffers.) -/
theorem claim_C1_monotonicity (st : EngineState) (buffers : List (List (List Char)))
    (hgrow : List.Chain' (fun a b => a <+: b) buffers) :
    st.lastProcessedCount ≤ (advanceSeq st buffers).lastProcessedCount ∧
    st.currentWordIndex ≤ (advanceSeq st buffers).currentWordIndex ∧
    ∀ n, (wAt st.wordStatuses n).status ≠ WStatus.pending →
      (wAt (advanceSeq st buffers).wordStatuses n).status ≠ WStatus.pending :=
  advanceSeq_mono buffers st

/-- C1 witness: the growing two-call run of C5's scenario. -/
theorem claim_C1_monotonicity_witness :
    List.Chain' (fun a b => a <+: b) [tokenize "بسم".data, tokenize "بسم الله".data] ∧
    ((initState ["بسم الله".data]).lastProcessedCount ≤
      (advanceSeq (initState ["بسم الله".data])
        [tokenize "بسم".data, tokenize "بسم الله".data]).lastProcessedCount ∧
    (initState ["بسم الله".data]).currentWordIndex ≤
      (advanceSeq (initState ["بسم الله".data])
        [tokenize "بسم".data, tokenize "بسم الله".data]).currentWordIndex ∧
    ∀ n, (wAt (initState ["بسم الله".data]).wordStatuses n).status ≠ WStatus.pending →
      (wAt (advanceSeq (initState ["بسم الله".data])
        [tokenize "بسم".data, tokenize "بسم الله".data]).wordStatuses n).status
        ≠ WStatus.pending) := by
  have hchain : List.Chain' (fun a b => a <+: b)
      [tokenize "بسم".data, tokenize "بسم الله".data] :=
    List.chain'_pair.mpr ⟨(tokenize "بسم الله".data).drop 1, by decide⟩
  exact ⟨hchain, claim_C1_monotonicity (initState ["بسم الله".data])
    [tokenize "بسم".data, tokenize "بسم الله".data] hchain⟩

theorem processWords_inv (ref : List WordStatus) :
    ∀ (ws : List (List Char)) (idx : Nat) (sts : List WordStatus),
      sts.length = ref.length →
      (∀ n, n < idx → n < sts.length → (wAt sts n).status ≠ WStatus.pending) →
      ∀ n, n < (processWords ref idx sts ws).1 →
        n < (processWords ref idx sts ws).2.1.length →
        (wAt (processWords ref idx sts ws).2.1 n).status ≠ WStatus.pending := by
  intro ws
  induction ws with
  | nil => intro idx sts _ hinv; exact hinv
  | cons u rest ih =>
    intro idx sts hlen hinv
    cases hstep : stepWord ref idx u rest.head? with
    | none => simp only [processWords, hstep]; exact hinv
    | some p =>
      obtain ⟨i1, ms⟩ := p
      simp only [processWords, hstep]
      refine ih i1 (applyMarks ref sts ms) (by rw [applyMarks_length]; exact hlen) ?_
      intro n hn1 hn2
      obtain ⟨hle, hlen', hnp, hcov⟩ := stepWord_some_spec hstep
      rw [applyMarks_length] at hn2
      by_cases hni : n < idx
      · exact applyMarks_status_mono ms sts hnp (hinv n hni hn2)
      · obtain ⟨s, hsmem⟩ := hcov n (by omega) hn1
        rcases hlen' with hl | hl
        · omega
        · exact applyMarks_mem_nonpending ms sts ⟨s, hsmem⟩ hnp (by omega) hlen

/-- C2: after an advance call, every reference position strictly below the
cursor has a non-Pending status (provided this held before the call; it
holds initially, when the cursor is 0). -/
theorem claim_C2_no_pending_below_cursor (st : EngineState) (userWords : List (List Char))
    (h : CursorInv st) : CursorInv (advance st userWords) := by
  unfold advance
  split_ifs with g1 g2 g3
  · exact h
  · exact h
  · exact h
  · intro n hn1 hn2
    have hn1' : n < (processWords st.wordStatuses st.currentWordIndex st.wordStatuses
        (userWords.drop st.lastProcessedCount)).1 := hn1
    have hn2' : n < (if (processWords st.wordStatuses st.currentWordIndex st.wordStatuses
        (userWords.drop st.lastProcessedCount)).1 ≠ st.currentWordIndex
        then (processWords st.wordStatuses st.currentWordIndex st.wordStatuses
          (userWords.drop st.lastProcessedCount)).2.1
        else st.wordStatuses).length := hn2
    show (wAt (if (processWords st.wordStatuses st.currentWordIndex st.wordStatuses
        (userWords.drop st.lastProcessedCount)).1 ≠ st.currentWordIndex
        then (processWords st.wordStatuses st.currentWordIndex st.wordStatuses
          (userWords.drop st.lastProcessedCount)).2.1
        else st.wordStatuses) n).status ≠ WStatus.pending
    split
    · rename_i hc
      rw [if_pos hc] at hn2'
      exact processWords_inv st.wordStatuses (userWords.drop st.lastProcessedCount)
        st.currentWordIndex st.wordStatuses rfl (fun m hm1 hm2 => h m hm1 hm2) n hn1' hn2'
    · rename_i hc
      rw [if_neg hc] at hn2'
      rw [Ne, not_not] at hc
      exact h n (by omega) hn2'

/-- C2 witness: the invariant holds for a fresh state (cursor 0) and is
preserved by a concrete advance call. -/
theorem claim_C2_no_pending_below_cursor_witness :
    CursorInv (initState ["بسم الله".data]) ∧
    CursorInv (advance (initState ["بسم الله".data]) (tokenize "بسم الله".data)) := by
  have h0 : CursorInv (initState ["بسم الله".data]) :=
    fun n hn _ => absurd hn (Nat.not_lt_zero n)
  exact ⟨h0, claim_C2_no_pending_below_cursor (initState ["بسم الله".data])
    (tokenize "بسم الله".data) h0⟩

/-- C9: advance is idempotent on an unchanged hypothesis buffer: a second
call with the same token list leaves the state exactly as after the first
call. -/
theorem claim_C9_idempotent (st : EngineState) (userWords : List (List Char)) :
    advance (advance st userWords) userWords = advance st userWords := by
  by_cases g1 : st.wordStatuses.length = 0
  · have he : advance st userWords = st := by unfold advance; rw [if_pos g1]
    rw [he]
    exact he
  by_cases g2 : st.wordStatuses.length ≤ st.currentWordIndex
  · have he : advance st userWords = st := by
      unfold advance
      rw [if_neg g1, if_pos g2]
    rw [he]
    exact he
  by_cases g3 : userWords.length ≤ st.lastProcessedCount
  · have he : advance st userWords = st := advance_stuck g3
    rw [he]
    exact he
  have hadv := advance_eq st userWords g1 g2 g3
  have hspec := processWords_spec st.wordStatuses (userWords.drop st.lastProcessedCount)
    st.currentWordIndex st.wordStatuses
  rw [show processWords st.wordStatuses st.currentWordIndex st.wordStatuses
      (userWords.drop st.lastProcessedCount) = advResult st userWords from rfl] at hspec
  rcases hspec with hfull | ⟨hlt, hdef⟩
  · -- every new token was consumed: the second call hits the early return
    refine advance_stuck ?_
    rw [hadv]
    show userWords.length ≤ st.lastProcessedCount + (advResult st userWords).2.2
    rw [hfull, List.length_drop]
    omega
  · -- the run deferred: the second call re-evaluates the same token at the
    -- same cursor over field-identical statuses and defers again
    rw [List.length_drop] at hlt
    have hsf : SameFieldsL st.wordStatuses (advance st userWords).wordStatuses := by
      rw [hadv]
      show SameFieldsL st.wordStatuses
        (if (advResult st userWords).1 ≠ st.currentWordIndex
          then (advResult st userWords).2.1 else st.wordStatuses)
      split
      · exact processWords_sameFields _ _ _ _ (SameFieldsL_refl _)
      · exact SameFieldsL_refl _
    have hlen1 : (advance st userWords).wordStatuses.length = st.wordStatuses.length :=
      hsf.1.symm
    have hcur : (advance st userWords).currentWordIndex = (advResult st userWords).1 := by
      rw [hadv]
    have hlpc : (advance st userWords).lastProcessedCount =
        st.lastProcessedCount + (advResult st userWords).2.2 := by
      rw [hadv]
    have hr1lt : (advResult st userWords).1 < st.wordStatuses.length :=
      stepWord_none_lt hdef
    have g1' : ¬ (advance st userWords).wordStatuses.length = 0 := by
      rw [hlen1]
      exact g1
    have g2' : ¬ (advance st userWords).wordStatuses.length ≤
        (advance st userWords).currentWordIndex := by
      rw [hlen1, hcur]
      omega
    have g3' : ¬ userWords.length ≤ (advance st userWords).lastProcessedCount := by
      rw [hlpc]
      omega
    have hlt2 : st.lastProcessedCount + (advResult st userWords).2.2 <
        userWords.length := by omega
    have hdrop2 : userWords.drop ((advance st userWords).lastProcessedCount) =
        ((userWords.drop st.lastProcessedCount).getD (advResult st userWords).2.2 []) ::
          userWords.drop (st.lastProcessedCount + (advResult st userWords).2.2 + 1) := by
      rw [hlpc, List.drop_eq_getElem_cons hlt2]
      congr 1
      rw [List.getD_eq_getElem?_getD, List.getElem?_drop,
        List.getElem?_eq_getElem hlt2]
      rfl
    have hnext : (userWords.drop
        (st.lastProcessedCount + (advResult st userWords).2.2 + 1)).head? =
        (userWords.drop st.lastProcessedCount)[(advResult st userWords).2.2 + 1]? := by
      rw [List.head?_drop, List.getElem?_drop, Nat.add_assoc]
    have hstep2 : stepWord (advance st userWords).wordStatuses
        (advance st userWords).currentWordIndex
        ((userWords.drop st.lastProcessedCount).getD (advResult st userWords).2.2 [])
        ((userWords.drop
          (st.lastProcessedCount + (advResult st userWords).2.2 + 1)).head?) = none := by
      rw [stepWord_congr (SameFieldsL_symm hsf), hcur, hnext]
      exact hdef
    have hproc2 : processWords (advance st userWords).wordStatuses
        (advance st userWords).currentWordIndex (advance st userWords).wordStatuses
        (userWords.drop ((advance st userWords).lastProcessedCount)) =
        ((advance st userWords).currentWordIndex,
          (advance st userWords).wordStatuses, 0) := by
      rw [hdrop2]
      simp only [processWords, hstep2]
    have hadv2 := advance_eq (advance st userWords) userWords g1' g2' g3'
    rw [hadv2]
    show (⟨_, _, _⟩ : EngineState) = advance st userWords
    rw [show advResult (advance st userWords) userWords =
        ((advance st userWords).currentWordIndex,
          (advance st userWords).wordStatuses, 0) from hproc2]
    rw [if_neg (by simp), Nat.add_zero]

/-- C8 amended, witness: the truncated call on a concrete state. -/
theorem claim_C8_amended_witness :
    ([] : List (List Char)).length ≤ (EngineState.mk (initStatuses ["أ ب".data]) 0 1).lastProcessedCount ∧
    advance ⟨initStatuses ["أ ب".data], 0, 1⟩ ([] : List (List Char))
      = ⟨initStatuses ["أ ب".data], 0, 1⟩ :=
  ⟨by decide, claim_C8_amended ⟨initStatuses ["أ ب".data], 0, 1⟩ [] (by decide)⟩

end QVB
